import Mathlib

/-!
Shallow embedding of the `bloomfilter` Go package (repository mraufc/bloomfilter)
and verification of its specification claims.

Machine integers are modelled as `Nat` with explicit reductions `% 2 ^ 64`
(Go `uint64`) and `% 256` (Go `uint8` / `byte`) at exactly the points where the
Go arithmetic wraps.  A Go byte slice is a `List Nat` of byte values, a Go
`[]uint64` is a `List Nat` of word values, and a Go `HashFunction64` is a plain
function from byte slices to `Nat`.
-/

/-- Byte slices (`[]byte` in Go); each entry is one byte value. -/
abbrev Bytes := List Nat

/-- HashFunction64 from the source: a function from a byte slice to a uint64. -/
abbrev HashFunction64 := Bytes → Nat

/-- BloomFilter structure from the source: two hash functions, the number of
hash rounds (`numHashFunctions`, a uint8 value), the size in bits (`size`, a
uint64 value) and the packed bit array `bits` (a `[]uint64`). -/
structure BloomFilter where
  hash1 : HashFunction64
  hash2 : HashFunction64
  numHashFunctions : Nat
  size : Nat
  bits : List Nat

/-- BloomFilterTS structure from the source: a thread-safe wrapper holding one
`BloomFilter`.  The `sync.RWMutex` field carries no sequential semantics and is
omitted from the embedding. -/
structure BloomFilterTS where
  bf : BloomFilter

/-- FNV-1a, as produced by `fnv.New64a` in `defaultHash1`:
starting from the 64-bit offset basis, each byte is XORed in and the state is
then multiplied by the 64-bit FNV prime (wrapping mod `2 ^ 64`). -/
def fnv1a (input : Bytes) : Nat :=
  input.foldl (fun h b => ((h ^^^ (b % 256)) * 1099511628211) % 2 ^ 64)
    14695981039346656037

/-- FNV-1, as produced by `fnv.New64` in `defaultHash2`:
starting from the 64-bit offset basis, the state is multiplied by the 64-bit
FNV prime (wrapping mod `2 ^ 64`) and each byte is then XORed in. -/
def fnv1 (input : Bytes) : Nat :=
  input.foldl (fun h b => ((h * 1099511628211) % 2 ^ 64) ^^^ (b % 256))
    14695981039346656037

/-- defaultHash1 from the source: the FNV-1a hash from the standard library. -/
def defaultHash1 : HashFunction64 := fnv1a

/-- defaultHash2 from the source: the FNV-1 hash from the standard library. -/
def defaultHash2 : HashFunction64 := fnv1

/-- Loop body of `getBitLocations`: with hash values `h1`, `h2` and the filter
size, produce the positions for rounds `i, i+1, ..., i+n-1`.  The Go loop
computes `retVal[i] = (hash1Val + uint64(i)*hash2Val) % bf.size` in uint64
arithmetic, so the linear combination wraps mod `2 ^ 64` before the reduction
mod `size`. -/
def bitLocsFrom (h1 h2 size : Nat) : Nat → Nat → List Nat
  | _, 0 => []
  | i, n + 1 => ((h1 + i * h2) % 2 ^ 64 % size) :: bitLocsFrom h1 h2 size (i + 1) n

/-- getBitLocations from the source: hash the input with both hash functions
and derive `numHashFunctions` bit positions by double hashing. -/
def BloomFilter.getBitLocations (bf : BloomFilter) (data : Bytes) : List Nat :=
  bitLocsFrom (bf.hash1 data) (bf.hash2 data) bf.size 0 bf.numHashFunctions

/-- Body of the loop in `Add`: for the current location, compute
`sliceLoc := (currLoc - currLoc % 64) / 64` and OR the mask
`1 <<< (currLoc % 64)` into `bits[sliceLoc]`. -/
def setBitStep (bits : List Nat) (currLoc : Nat) : List Nat :=
  bits.set ((currLoc - currLoc % 64) / 64)
    (bits.getD ((currLoc - currLoc % 64) / 64) 0 ||| 1 <<< (currLoc % 64))

/-- Add from the source: derive the bit locations of `data` and set each one
in the bit array. -/
def BloomFilter.Add (bf : BloomFilter) (data : Bytes) : BloomFilter :=
  { bf with bits := (bf.getBitLocations data).foldl setBitStep bf.bits }

/-- Body of the loop in `Query`: test whether the bit for the current location
is set, i.e. whether `bits[sliceLoc] &&& (1 <<< (currLoc % 64))` is nonzero. -/
def testBitStep (bits : List Nat) (currLoc : Nat) : Bool :=
  bits.getD ((currLoc - currLoc % 64) / 64) 0 &&& 1 <<< (currLoc % 64) != 0

/-- Query from the source: derive the bit locations of `data` and return
`true` exactly when every one of them is set (the Go loop returns `false` on
the first unset bit).  The Go method performs no writes, so its embedding is a
pure function of the filter state. -/
def BloomFilter.Query (bf : BloomFilter) (data : Bytes) : Bool :=
  (bf.getBitLocations data).all (fun p => testBitStep bf.bits p)

/-- Add for the thread-safe wrapper: locks, delegates to the core `Add`,
unlocks. -/
def BloomFilterTS.Add (bfts : BloomFilterTS) (data : Bytes) : BloomFilterTS :=
  ⟨bfts.bf.Add data⟩

/-- Query for the thread-safe wrapper: read-locks, delegates to the core
`Query`, returns its result unchanged. -/
def BloomFilterTS.Query (bfts : BloomFilterTS) (data : Bytes) : Bool :=
  bfts.bf.Query data

/-- Word count of the bit array, as computed in `NewBySizeAndNumHashFuncs`:
`l := (size - size%64) / 64`, incremented when `size % 64 > 0`. -/
def wordLen (size : Nat) : Nat :=
  if size % 64 > 0 then (size - size % 64) / 64 + 1 else (size - size % 64) / 64

/-- NewBySizeAndNumHashFuncs from the source (the revision present in
`src/bloomfilter.go`): substitutes the default hashes for omitted ones, a
default size of `8*1024*1024*100` bits when `size == 0`, allocates a zeroed
bit array of `wordLen size` words, and substitutes `11` hash rounds when
`numHashFunctions == 0`. -/
def NewBySizeAndNumHashFuncs (size numHashFunctions : Nat)
    (hash1 hash2 : Option HashFunction64) : BloomFilter :=
  let h1 := hash1.getD defaultHash1
  let h2 := hash2.getD defaultHash2
  let sz := if size = 0 then 8 * 1024 * 1024 * 100 else size
  let k := if numHashFunctions = 0 then 11 else numHashFunctions
  { hash1 := h1, hash2 := h2, numHashFunctions := k, size := sz,
    bits := List.replicate (wordLen sz) 0 }

/-- Errors declared in `src/errors.go`, as a closed enumeration of
distinguishable error values. -/
inductive BloomError where
  | invalidNumberOfItems
  | invalidFalsePositiveRate
  | invalidSize
  | invalidNumberOfHashFunctions
deriving DecidableEq

/-- Modelled from the spec: the final, error-returning revision of
`NewBySizeAndNumHashFuncs`, whose body is not among the source files (only its
tests and the error declarations in `src/errors.go` are).  Per the spec it
fails with `InvalidSize` when `size == 0`, fails with `InvalidHashRoundCount`
when the hash-round count is `0`, substitutes defaults for omitted hash
functions, and on success returns a filter with a zeroed bit array of
`ceil(size/64)` words. -/
def NewBySizeAndNumHashFuncsE (size numHashFunctions : Nat)
    (hash1 hash2 : Option HashFunction64) : Except BloomError BloomFilter :=
  if size = 0 then .error .invalidSize
  else if numHashFunctions = 0 then .error .invalidNumberOfHashFunctions
  else .ok { hash1 := hash1.getD defaultHash1, hash2 := hash2.getD defaultHash2,
             numHashFunctions := numHashFunctions, size := size,
             bits := List.replicate (wordLen size) 0 }

/-- Modelled from the spec: the final, error-returning revision of
`NewByEstimates`, whose body is not among the source files.  Per the spec it
fails with `InvalidItemCount` when `expectedItemCount == 0`, fails with
`InvalidFalsePositiveRate` when the rate is `<= 0` or `>= 1` (the item-count
check is listed first and comes first in every surviving revision), and
otherwise delegates the computed size and hash-round count to the explicit
constructor.  The float64 sizing formulas are abstracted as the parameter
`est`; the false-positive rate is modelled as a rational. -/
def NewByEstimatesE (est : Nat → ℚ → Nat × Nat) (numItems : Nat) (fpRate : ℚ)
    (hash1 hash2 : Option HashFunction64) : Except BloomError BloomFilter :=
  if numItems = 0 then .error .invalidNumberOfItems
  else if fpRate ≤ 0 ∨ 1 ≤ fpRate then .error .invalidFalsePositiveRate
  else
    let sk := est numItems fpRate
    NewBySizeAndNumHashFuncsE sk.1 sk.2 hash1 hash2

/-- Modelled from the spec: the final, error-returning revision of
`NewTSByEstimates`: mirrors `NewByEstimates` one-to-one, wrapping the
resulting core and propagating the same errors without alteration. -/
def NewTSByEstimatesE (est : Nat → ℚ → Nat × Nat) (numItems : Nat) (fpRate : ℚ)
    (hash1 hash2 : Option HashFunction64) : Except BloomError BloomFilterTS :=
  (NewByEstimatesE est numItems fpRate hash1 hash2).map BloomFilterTS.mk

/-- Modelled from the spec: the final, error-returning revision of
`NewTSBySizeAndNumHashFuncs`: mirrors `NewBySizeAndNumHashFuncs` one-to-one,
wrapping the resulting core and propagating the same errors without
alteration. -/
def NewTSBySizeAndNumHashFuncsE (size numHashFunctions : Nat)
    (hash1 hash2 : Option HashFunction64) : Except BloomError BloomFilterTS :=
  (NewBySizeAndNumHashFuncsE size numHashFunctions hash1 hash2).map BloomFilterTS.mk

/-- Well-formedness of a filter as established by construction: a positive bit
count and a bit array of exactly `wordLen size` words. -/
abbrev WellFormed (bf : BloomFilter) : Prop :=
  0 < bf.size ∧ bf.bits.length = wordLen bf.size

/-- Applying a sequence of insertions in order. -/
def addAll (bf : BloomFilter) (ds : List Bytes) : BloomFilter :=
  ds.foldl BloomFilter.Add bf

/-- Concrete example filter used to instantiate hypotheses: size 128 bits,
2 hash rounds, constant hash functions 5 and 7. -/
def exampleBF : BloomFilter :=
  NewBySizeAndNumHashFuncs 128 2 (some (fun _ => 5)) (some (fun _ => 7))

/-- Helper: the Go index computation `(p - p % 64) / 64` is plain division. -/
lemma sliceLoc_eq (p : Nat) : (p - p % 64) / 64 = p / 64 := by
  have h := Nat.div_add_mod p 64
  have h2 : p - p % 64 = 64 * (p / 64) := by omega
  rw [h2, Nat.mul_div_cancel_left _ (by norm_num : (0:Nat) < 64)]

/-- Helper: the masking test in `Query` is `Nat.testBit` of the addressed word. -/
lemma testBitStep_eq (bits : List Nat) (p : Nat) :
    testBitStep bits p = (bits.getD (p / 64) 0).testBit (p % 64) := by
  unfold testBitStep
  rw [sliceLoc_eq, Nat.shiftLeft_eq, one_mul, Nat.and_two_pow]
  cases h : (bits.getD (p / 64) 0).testBit (p % 64) <;> simp [h]

/-- Helper: the OR-update in `Add`, with the index computation simplified. -/
lemma setBitStep_eq (bits : List Nat) (p : Nat) :
    setBitStep bits p =
      bits.set (p / 64) (bits.getD (p / 64) 0 ||| 1 <<< (p % 64)) := by
  unfold setBitStep
  rw [sliceLoc_eq]

/-- Helper: reading back from a `List.set`, with a default of 0. -/
lemma getD_set_zero (bits : List Nat) (i j v : Nat) :
    (bits.set i v).getD j 0 =
      if i = j ∧ i < bits.length then v else bits.getD j 0 := by
  by_cases hj : j < bits.length
  · have hj2 : j < (bits.set i v).length := by rw [List.length_set]; exact hj
    rw [List.getD_eq_getElem _ _ hj2, List.getD_eq_getElem _ _ hj, List.getElem_set]
    by_cases h : i = j
    · simp [h, hj]
    · simp [h]
  · have hle : bits.length ≤ j := by omega
    have hle2 : (bits.set i v).length ≤ j := by rw [List.length_set]; exact hle
    rw [List.getD_eq_default _ _ hle2, List.getD_eq_default _ _ hle]
    have hni : ¬(i = j ∧ i < bits.length) := by
      rintro ⟨rfl, hlt⟩
      omega
    rw [if_neg hni]

/-- Helper: setting one bit never clears another. -/
lemma testBitStep_setBitStep_mono (bits : List Nat) (p q : Nat)
    (h : testBitStep bits q = true) : testBitStep (setBitStep bits p) q = true := by
  rw [testBitStep_eq] at h ⊢
  rw [setBitStep_eq, getD_set_zero]
  split
  · next hc =>
    rw [Nat.testBit_or]
    have hw : bits.getD (p / 64) 0 = bits.getD (q / 64) 0 := by rw [hc.1]
    rw [hw, h]
    simp
  · exact h

/-- Helper: setting a bit in bounds makes its test succeed. -/
lemma testBitStep_setBitStep_self (bits : List Nat) (p : Nat)
    (h : p / 64 < bits.length) : testBitStep (setBitStep bits p) p = true := by
  rw [testBitStep_eq, setBitStep_eq, getD_set_zero, if_pos ⟨rfl, h⟩,
    Nat.shiftLeft_eq, one_mul, Nat.testBit_or]
  simp [Nat.testBit_two_pow_self]

/-- Helper: one step of the `Add` loop preserves the word count. -/
lemma length_setBitStep (bits : List Nat) (p : Nat) :
    (setBitStep bits p).length = bits.length := by
  unfold setBitStep
  exact List.length_set ..

/-- Helper: the whole `Add` loop preserves the word count. -/
lemma length_foldl_setBitStep (locs : List Nat) (bits : List Nat) :
    (locs.foldl setBitStep bits).length = bits.length := by
  induction locs generalizing bits with
  | nil => rfl
  | cons p rest ih => rw [List.foldl_cons, ih, length_setBitStep]

/-- Helper: the `Add` loop never clears a set bit. -/
lemma testBitStep_foldl_mono (locs : List Nat) (bits : List Nat) (q : Nat)
    (h : testBitStep bits q = true) :
    testBitStep (locs.foldl setBitStep bits) q = true := by
  induction locs generalizing bits with
  | nil => exact h
  | cons p rest ih => exact ih _ (testBitStep_setBitStep_mono _ _ _ h)

/-- Helper: after the `Add` loop, every location of the loop is set, provided
each addressed word is in bounds. -/
lemma testBitStep_foldl_of_mem (q : Nat) (locs : List Nat) :
    ∀ bits : List Nat, q ∈ locs → (∀ p ∈ locs, p / 64 < bits.length) →
    testBitStep (locs.foldl setBitStep bits) q = true := by
  induction locs with
  | nil =>
    intro bits hq _
    cases hq
  | cons p rest ih =>
    intro bits hq hb
    rw [List.foldl_cons]
    rcases List.mem_cons.mp hq with hq1 | hq1
    · subst hq1
      exact testBitStep_foldl_mono _ _ _
        (testBitStep_setBitStep_self _ _ (hb _ (List.mem_cons_self ..)))
    · refine ih (setBitStep bits p) hq1 (fun r hr => ?_)
      rw [length_setBitStep]
      exact hb r (List.mem_cons_of_mem _ hr)

/-- Helper: when the size is positive, every derived location is below it. -/
lemma bitLocsFrom_lt_size (h1 h2 size : Nat) (hs : 0 < size) :
    ∀ n i p, p ∈ bitLocsFrom h1 h2 size i n → p < size := by
  intro n
  induction n with
  | zero =>
    intro i p hp
    cases hp
  | succ m ih =>
    intro i p hp
    rcases List.mem_cons.mp hp with hp1 | hp1
    · subst hp1
      exact Nat.mod_lt _ hs
    · exact ih _ _ hp1

/-- Helper: the loop produces exactly one location per hash round. -/
lemma bitLocsFrom_length (h1 h2 size : Nat) :
    ∀ n i, (bitLocsFrom h1 h2 size i n).length = n := by
  intro n
  induction n with
  | zero => intro i; rfl
  | succ m ih =>
    intro i
    rw [bitLocsFrom, List.length_cons, ih]

/-- Helper: the `j`-th produced location is the double-hashing formula at
round `i + j`. -/
lemma bitLocsFrom_getD (h1 h2 size : Nat) :
    ∀ n i j, j < n → (bitLocsFrom h1 h2 size i n).getD j 0 =
      (h1 + (i + j) * h2) % 2 ^ 64 % size := by
  intro n
  induction n with
  | zero =>
    intro i j hj
    omega
  | succ m ih =>
    intro i j hj
    cases j with
    | zero => simp [bitLocsFrom]
    | succ jj =>
      rw [bitLocsFrom, List.getD_cons_succ, ih (i + 1) jj (by omega)]
      have harith : i + 1 + jj = i + (jj + 1) := by omega
      rw [harith]

/-- Helper: a position below the bit count addresses a word below the word
count. -/
lemma div64_lt_wordLen (p size : Nat) (h : p < size) : p / 64 < wordLen size := by
  unfold wordLen
  split <;> omega

/-- Helper: `Add` leaves every field except `bits` untouched, and the
locations it derives agree with those of the original filter. -/
lemma getBitLocations_Add (bf : BloomFilter) (d data : Bytes) :
    (bf.Add d).getBitLocations data = bf.getBitLocations data := rfl

/-- Helper: the bit array produced by `Add`. -/
lemma Add_bits (bf : BloomFilter) (d : Bytes) :
    (bf.Add d).bits = (bf.getBitLocations d).foldl setBitStep bf.bits := rfl

/-- Helper: `Add` preserves the word count of the bit array. -/
lemma Add_length (bf : BloomFilter) (d : Bytes) :
    (bf.Add d).bits.length = bf.bits.length :=
  length_foldl_setBitStep ..

/-- Helper: `Add` preserves well-formedness. -/
lemma wf_Add (bf : BloomFilter) (d : Bytes) (h : WellFormed bf) :
    WellFormed (bf.Add d) := by
  refine ⟨h.1, ?_⟩
  rw [Add_length bf d, h.2]
  rfl

/-- Helper: a sequence of insertions preserves well-formedness. -/
lemma wf_addAll (bf : BloomFilter) (ds : List Bytes) (h : WellFormed bf) :
    WellFormed (addAll bf ds) := by
  induction ds generalizing bf with
  | nil => exact h
  | cons d rest ih => exact ih _ (wf_Add bf d h)

/-- Helper: `Query` is monotone under one insertion. -/
lemma query_mono_Add (bf : BloomFilter) (d data : Bytes)
    (h : bf.Query data = true) : (bf.Add d).Query data = true := by
  unfold BloomFilter.Query at h ⊢
  rw [getBitLocations_Add]
  rw [List.all_eq_true] at h ⊢
  intro p hp
  rw [Add_bits]
  exact testBitStep_foldl_mono _ _ _ (h p hp)

/-- Helper: `Query` is monotone under any sequence of insertions. -/
lemma query_mono_addAll (bf : BloomFilter) (ds : List Bytes) (data : Bytes)
    (h : bf.Query data = true) : (addAll bf ds).Query data = true := by
  induction ds generalizing bf with
  | nil => exact h
  | cons d rest ih => exact ih _ (query_mono_Add bf d data h)

/-- Helper: on a well-formed filter, inserting a key makes its own query
succeed. -/
lemma query_Add_self (bf : BloomFilter) (data : Bytes) (h : WellFormed bf) :
    (bf.Add data).Query data = true := by
  unfold BloomFilter.Query
  rw [getBitLocations_Add, List.all_eq_true]
  intro p hp
  rw [Add_bits]
  refine testBitStep_foldl_of_mem p _ _ hp (fun r hr => ?_)
  have hrs : r < bf.size := bitLocsFrom_lt_size _ _ _ h.1 _ _ _ hr
  rw [h.2]
  exact div64_lt_wordLen r bf.size hrs

/-- Helper: every filter produced by the source constructor is well-formed. -/
lemma wf_New (s k : Nat) (h1 h2 : Option HashFunction64) :
    WellFormed (NewBySizeAndNumHashFuncs s k h1 h2) := by
  constructor
  · show 0 < (if s = 0 then 8 * 1024 * 1024 * 100 else s)
    split <;> omega
  · exact List.length_replicate ..

/-- Helper: reading any word of an all-zero bit array gives 0. -/
lemma getD_replicate_zero (n j : Nat) :
    (List.replicate n (0 : Nat)).getD j 0 = 0 := by
  by_cases hj : j < n
  · rw [List.getD_eq_getElem _ _ (by simpa using hj), List.getElem_replicate]
  · rw [List.getD_eq_default]
    simpa using by omega

/-- Helper: a filter with at least one hash round and an all-zero bit array
answers `false` to every query. -/
lemma query_zero_bits (bf : BloomFilter) (hk : bf.numHashFunctions ≠ 0)
    (hb : ∀ j, bf.bits.getD j 0 = 0) (data : Bytes) :
    bf.Query data = false := by
  unfold BloomFilter.Query BloomFilter.getBitLocations
  obtain ⟨m, hm⟩ := Nat.exists_eq_succ_of_ne_zero hk
  rw [hm, bitLocsFrom, List.all_cons]
  have hfirst :
      testBitStep bf.bits ((bf.hash1 data + 0 * bf.hash2 data) % 2 ^ 64 % bf.size)
        = false := by
    rw [testBitStep_eq, hb, Nat.zero_testBit]
  rw [hfirst, Bool.false_and]

/-- Helper: wrapping with `BloomFilterTS.mk` via `Except.map` preserves the
error exactly. -/
lemma map_mk_error_iff (x : Except BloomError BloomFilter) (e : BloomError) :
    x.map BloomFilterTS.mk = Except.error e ↔ x = Except.error e := by
  cases x <;> simp [Except.map]

/-- Helper: wrapping with `BloomFilterTS.mk` via `Except.map` succeeds exactly
on the same core. -/
lemma map_mk_ok_iff (x : Except BloomError BloomFilter) (bf : BloomFilter) :
    x.map BloomFilterTS.mk = Except.ok ⟨bf⟩ ↔ x = Except.ok bf := by
  cases x <;> simp [Except.map, BloomFilterTS.mk.injEq]

/-- C1: for every successfully constructed plain filter and every key, after
`Add(key)` has been executed, `Query(key)` returns `true`, regardless of which
other keys were added before (`pre`) or after (`post`) — no false negatives. -/
theorem c1_no_false_negatives (s k : Nat) (h1 h2 : Option HashFunction64)
    (pre post : List Bytes) (key : Bytes) :
    (addAll ((addAll (NewBySizeAndNumHashFuncs s k h1 h2) pre).Add key)
      post).Query key = true :=
  query_mono_addAll _ _ _
    (query_Add_self _ _ (wf_addAll _ _ (wf_New s k h1 h2)))

/-- C2: explicit-size construction with `size == 0` fails with the
distinguishable error `InvalidSize` instead of returning a filter; in
particular `constructBySize(0, 5)` fails with `InvalidSize`. -/
theorem c2_zero_size_invalid (k : Nat) (h1 h2 : Option HashFunction64) :
    NewBySizeAndNumHashFuncsE 0 k h1 h2 = Except.error BloomError.invalidSize ∧
    NewBySizeAndNumHashFuncsE 0 5 none none = Except.error BloomError.invalidSize :=
  ⟨rfl, rfl⟩

/-- C3 (counterexample to the claim as stated): at `expectedItemCount = 0` and
`falsePositiveRate = 0`, estimate-based construction fails with
`InvalidItemCount`, not with `InvalidFalsePositiveRate`, so the rate error is
not returned for every value of the item count. -/
theorem c3_counterexample :
    NewByEstimatesE (fun _ _ => (1, 1)) 0 0 none none =
      Except.error BloomError.invalidNumberOfItems ∧
    NewByEstimatesE (fun _ _ => (1, 1)) 0 0 none none ≠
      Except.error BloomError.invalidFalsePositiveRate := by
  refine ⟨rfl, fun hcontra => ?_⟩
  rw [show NewByEstimatesE (fun _ _ => (1, 1)) 0 0 none none =
      Except.error BloomError.invalidNumberOfItems from rfl] at hcontra
  injection hcontra with hh
  exact BloomError.noConfusion hh

/-- C3 (amended): estimate-based construction with a `falsePositiveRate`
outside the open interval (0,1) fails with the distinguishable error
`InvalidFalsePositiveRate` instead of a filter, for every nonzero
`expectedItemCount` (a zero item count instead fails with `InvalidItemCount`). -/
theorem c3_fprate_invalid (est : Nat → ℚ → Nat × Nat) (numItems : Nat)
    (fpRate : ℚ) (h1 h2 : Option HashFunction64) (hn : numItems ≠ 0)
    (hfp : fpRate ≤ 0 ∨ 1 ≤ fpRate) :
    NewByEstimatesE est numItems fpRate h1 h2 =
      Except.error BloomError.invalidFalsePositiveRate := by
  unfold NewByEstimatesE
  rw [if_neg hn, if_pos hfp]

/-- C3 witness: the amended claim at the spec's two boundary cases
`constructByEstimate(100, 0.0)` and `constructByEstimate(100, 1.0)`. -/
theorem c3_fprate_invalid_witness :
    (100 ≠ 0) ∧ ((0 : ℚ) ≤ 0 ∨ 1 ≤ (0 : ℚ)) ∧ ((1 : ℚ) ≤ 0 ∨ 1 ≤ (1 : ℚ)) ∧
    NewByEstimatesE (fun _ _ => (1, 1)) 100 0 none none =
      Except.error BloomError.invalidFalsePositiveRate ∧
    NewByEstimatesE (fun _ _ => (1, 1)) 100 1 none none =
      Except.error BloomError.invalidFalsePositiveRate :=
  ⟨by decide, Or.inl le_rfl, Or.inr le_rfl,
   c3_fprate_invalid _ 100 0 none none (by decide) (Or.inl le_rfl),
   c3_fprate_invalid _ 100 1 none none (by decide) (Or.inr le_rfl)⟩

/-- C4: for every filter and key, `getBitLocations` yields exactly
`numHashFunctions` positions, and the position for round `i` is
`(h1 + i * h2) mod size` with `h1 = hash1(data)`, `h2 = hash2(data)`, computed
in 64-bit arithmetic (the linear combination wraps mod `2 ^ 64` as in the Go
uint64 code) and reduced mod the filter's total bit count. -/
theorem c4_double_hashing (bf : BloomFilter) (data : Bytes) (i : Nat)
    (hi : i < bf.numHashFunctions) :
    (bf.getBitLocations data).length = bf.numHashFunctions ∧
    (bf.getBitLocations data).getD i 0 =
      (bf.hash1 data + i * bf.hash2 data) % 2 ^ 64 % bf.size := by
  constructor
  · exact bitLocsFrom_length ..
  · unfold BloomFilter.getBitLocations
    rw [bitLocsFrom_getD _ _ _ _ 0 i hi, Nat.zero_add]

/-- C4 witness: the double-hashing formula evaluated on the example filter at
round 1. -/
theorem c4_double_hashing_witness :
    1 < exampleBF.numHashFunctions ∧
    ((exampleBF.getBitLocations []).length = exampleBF.numHashFunctions ∧
     (exampleBF.getBitLocations []).getD 1 0 =
       (exampleBF.hash1 [] + 1 * exampleBF.hash2 []) % 2 ^ 64 % exampleBF.size) :=
  ⟨by decide, c4_double_hashing exampleBF [] 1 (by decide)⟩

/-- C6: construction always yields a well-formed filter; on a well-formed
filter every word index computed by the `Add`/`Query` loops,
`(p - p % 64) / 64` for a derived location `p`, is strictly below the length
of the bits array, and `Add` preserves well-formedness — so `Add` and `Query`
are total and never access out of bounds for any byte sequence. -/
theorem c6_no_out_of_bounds :
    (∀ (s k : Nat) (h1 h2 : Option HashFunction64),
      WellFormed (NewBySizeAndNumHashFuncs s k h1 h2)) ∧
    (∀ bf : BloomFilter, WellFormed bf → ∀ (data : Bytes) (p : Nat),
      p ∈ bf.getBitLocations data → (p - p % 64) / 64 < bf.bits.length) ∧
    (∀ (bf : BloomFilter) (data : Bytes), WellFormed bf →
      WellFormed (bf.Add data)) := by
  refine ⟨fun s k h1 h2 => wf_New s k h1 h2, fun bf hwf data p hp => ?_,
    fun bf data hwf => wf_Add bf data hwf⟩
  rw [sliceLoc_eq, hwf.2]
  exact div64_lt_wordLen p bf.size (bitLocsFrom_lt_size _ _ _ hwf.1 _ _ _ hp)

/-- C6 witness: the in-bounds bound instantiated on the example filter at its
first derived location. -/
theorem c6_no_out_of_bounds_witness :
    WellFormed exampleBF ∧ 5 ∈ exampleBF.getBitLocations [] ∧
    (5 - 5 % 64) / 64 < exampleBF.bits.length :=
  ⟨by decide, by decide,
   c6_no_out_of_bounds.2.1 exampleBF (by decide) [] 5 (by decide)⟩

/-- C7: the bit array is monotone — `Add` never clears a set bit — and
consequently a `Query` that returns `true` keeps returning `true` after any
further sequence of insertions (results only flip from `false` to `true`). -/
theorem c7_monotone :
    (∀ (bf : BloomFilter) (d : Bytes) (q : Nat),
      testBitStep bf.bits q = true → testBitStep (bf.Add d).bits q = true) ∧
    (∀ (bf : BloomFilter) (ds : List Bytes) (key : Bytes),
      bf.Query key = true → (addAll bf ds).Query key = true) := by
  constructor
  · intro bf d q h
    rw [Add_bits]
    exact testBitStep_foldl_mono _ _ _ h
  · intro bf ds key h
    exact query_mono_addAll bf ds key h

/-- C7 witness: monotonicity instantiated on the example filter after one
insertion. -/
theorem c7_monotone_witness :
    testBitStep (exampleBF.Add []).bits 5 = true ∧
    testBitStep ((exampleBF.Add []).Add [1]).bits 5 = true ∧
    (exampleBF.Add []).Query [] = true ∧
    (addAll (exampleBF.Add []) [[9]]).Query [] = true :=
  ⟨by decide, c7_monotone.1 (exampleBF.Add []) [1] 5 (by decide),
   by decide, c7_monotone.2 (exampleBF.Add []) [[9]] [] (by decide)⟩

/-- C8: a freshly constructed filter with no insertions returns `false` from
`Query` for every key — all bits start at zero and construction guarantees at
least one hash round, so the first derived position is found unset. -/
theorem c8_empty_filter_query_false (s k : Nat) (h1 h2 : Option HashFunction64)
    (data : Bytes) :
    (NewBySizeAndNumHashFuncs s k h1 h2).Query data = false := by
  apply query_zero_bits
  · show (if k = 0 then 11 else k) ≠ 0
    split <;> omega
  · intro j
    exact getD_replicate_zero _ j

/-- C9: each thread-safe constructor behaves exactly like the corresponding
plain-core constructor: it succeeds wrapping the identically parameterized
core exactly when the core constructor succeeds, and fails with the very same
error exactly when the core constructor fails. -/
theorem c9_ts_mirrors_core :
    (∀ (s k : Nat) (h1 h2 : Option HashFunction64),
      (∀ e, NewTSBySizeAndNumHashFuncsE s k h1 h2 = Except.error e ↔
            NewBySizeAndNumHashFuncsE s k h1 h2 = Except.error e) ∧
      (∀ bf, NewTSBySizeAndNumHashFuncsE s k h1 h2 = Except.ok ⟨bf⟩ ↔
             NewBySizeAndNumHashFuncsE s k h1 h2 = Except.ok bf)) ∧
    (∀ (est : Nat → ℚ → Nat × Nat) (n : Nat) (fp : ℚ)
       (h1 h2 : Option HashFunction64),
      (∀ e, NewTSByEstimatesE est n fp h1 h2 = Except.error e ↔
            NewByEstimatesE est n fp h1 h2 = Except.error e) ∧
      (∀ bf, NewTSByEstimatesE est n fp h1 h2 = Except.ok ⟨bf⟩ ↔
             NewByEstimatesE est n fp h1 h2 = Except.ok bf)) :=
  ⟨fun s k h1 h2 =>
    ⟨fun e => map_mk_error_iff (NewBySizeAndNumHashFuncsE s k h1 h2) e,
     fun bf => map_mk_ok_iff (NewBySizeAndNumHashFuncsE s k h1 h2) bf⟩,
   fun est n fp h1 h2 =>
    ⟨fun e => map_mk_error_iff (NewByEstimatesE est n fp h1 h2) e,
     fun bf => map_mk_ok_iff (NewByEstimatesE est n fp h1 h2) bf⟩⟩

/-- C10: `Add` leaves `hash1`, `hash2`, `numHashFunctions`, `size` and the
length of the bits array unchanged; the thread-safe wrapper's `Add` only
delegates; and `Query` is embedded as a pure function of the filter state
because the source performs no writes, so it leaves the entire state
unchanged. -/
theorem c10_frame (bf : BloomFilter) (data : Bytes) (bfts : BloomFilterTS) :
    (bf.Add data).hash1 = bf.hash1 ∧
    (bf.Add data).hash2 = bf.hash2 ∧
    (bf.Add data).numHashFunctions = bf.numHashFunctions ∧
    (bf.Add data).size = bf.size ∧
    (bf.Add data).bits.length = bf.bits.length ∧
    (bfts.Add data).bf = bfts.bf.Add data ∧
    bfts.Query data = bfts.bf.Query data :=
  ⟨rfl, rfl, rfl, rfl, Add_length bf data, rfl, rfl⟩
